import Mathlib

/-!
# Verification of `tools/mem_init_gen.py` (general-cores)

Shallow embedding of the memory-initialization generator: the Shaper
(depth/width padding-or-truncation), the Word Decomposer (fixed-width
big-endian slicing with optional per-word byte reversal), and the three
output encoders (BRAM, MIF, VHD).  Bytes are modelled as `Nat` values
(< 256 in the real pipeline), the byte buffer as `List Nat`, and the
generated text as `String`s / lists of emitted lines.

The VHD encoder's line-wrap decision (`i % numcol == numcol - 1`, computed
in Python floating point) is modelled as an abstract predicate
`wrapAt : Nat → Bool`; every theorem about the VHD output is proved for
all such predicates, so it covers the actual float behaviour.  Likewise
the banner's date, program name and argument dump, which the script takes
from the environment (`datetime.date.today()`, `parser.prog`, `vars(args)`),
are passed in as opaque strings.
-/

namespace MemInitGen

/-- Output format selector (the `--oformat` option). -/
inductive OFormat where
  | BRAM
  | MIF
  | VHD
deriving DecidableEq, Repr

/-- One invocation's parameters, as parsed by argparse. -/
structure Config where
  width : Nat
  depth : Nat
  pad : Nat
  invert : Bool
  name : String
  inFile : String
  oformat : OFormat

/-- Depth step of the Shaper (lines 79–84 of `mem_init_gen.py`): if `depth`
is nonzero, pad with `pad` up to `depth*width` bytes or truncate down to the
first `depth*width` bytes. -/
def shapeDepth (depth width pad : Nat) (B : List Nat) : List Nat :=
  if depth ≠ 0 then
    if depth * width > B.length then B ++ List.replicate (depth * width - B.length) pad
    else B.take (depth * width)
  else B

/-- The full Shaper (lines 79–87): the depth step, then the width-boundary
step, which appends `len % width` further pad bytes — the script's literal
arithmetic `contents += pad_val * (len(contents) % args.width)`. -/
def shape (depth width pad : Nat) (B : List Nat) : List Nat :=
  shapeDepth depth width pad B
    ++ List.replicate ((shapeDepth depth width pad B).length % width) pad

/-- Slicing worker with explicit fuel, so the recursion is structural and
the kernel can evaluate it.  Each step takes one `w`-byte (or shorter,
at the end) slice and drops `w` elements; `(b :: bs).drop w` is written
`bs.drop (w - 1)`.  Any `fuel ≥ length` gives the same result when `w ≥ 1`,
since every step consumes at least one element. -/
def chunksF (w : Nat) : Nat → List Nat → List (List Nat)
  | 0, _ => []
  | _, [] => []
  | fuel + 1, b :: bs => (b :: bs).take w :: chunksF w fuel (bs.drop (w - 1))

/-- Successive slices `B[i:i+w]` for `i in range(0, len(B), w)`, for `w ≥ 1`
(the script's slicing in lines 92–96; Python rejects `w = 0`). -/
def chunks (w : Nat) (B : List Nat) : List (List Nat) :=
  chunksF w B.length B

/-- `int(binascii.hexlify(bytes), 16)`: big-endian unsigned interpretation. -/
def bytesToNat (l : List Nat) : Nat :=
  l.foldl (fun a b => a * 256 + b) 0

/-- The Word Decomposer (lines 91–96): slice into `width`-byte chunks and
interpret each big-endian, reversing each chunk first when
`invert == True and width > 1`. -/
def wordsOf (invert : Bool) (w : Nat) (B : List Nat) : List Nat :=
  if invert = true ∧ 1 < w then
    (chunks w B).map (fun c => bytesToNat c.reverse)
  else
    (chunks w B).map bytesToNat

/-- Python's digit characters for bases up to 16 (lowercase hex). -/
def digitChar (d : Nat) : Char :=
  if d < 10 then Char.ofNat (48 + d) else Char.ofNat (87 + d)

/-- Little-endian digits of `n` in base `b`, with explicit fuel so the
definition is structural (kernel-reducible).  `digitsF b n n` is the
digit list of `n` for any base `b ≥ 2`. -/
def digitsF (b : Nat) : Nat → Nat → List Nat
  | 0, _ => []
  | _, 0 => []
  | fuel + 1, n + 1 => ((n + 1) % b) :: digitsF b fuel ((n + 1) / b)

/-- Python's `'{:b}'`/`'{:x}'` rendering: most-significant digit first,
no leading zeros, `"0"` for zero, lowercase digits. -/
def natToBase (b n : Nat) : String :=
  if n = 0 then "0" else String.mk ((digitsF b n n).reverse.map digitChar)

/-- Python's `'{:0{w}}'` / `'{:{w}}'` fill: left-pad `s` with `c` to width `w`
(strings already at least `w` long are unchanged). -/
def padLeft (c : Char) (w : Nat) (s : String) : String :=
  String.mk (List.replicate (w - s.length) c ++ s.data)

/-- BRAM encoder (lines 99–102): one line per word,
`'{:0{fwidth}b}'.format(word, fwidth=width*8)`. -/
def bramLines (w : Nat) (ws : List Nat) : List String :=
  ws.map (fun wd => padLeft '0' (w * 8) (natToBase 2 wd))

/-- One MIF body line (line 114): `'{:x} : {:0{fwidth}x};'` with
`fwidth = width*2`. -/
def mifBodyLine (w i wd : Nat) : String :=
  natToBase 16 i ++ " : " ++ padLeft '0' (w * 2) (natToBase 16 wd) ++ ";"

/-- The MIF body loop (`for i, word in enumerate(words)`), with the running
address carried explicitly. -/
def mifBody (w : Nat) : Nat → List Nat → List String
  | _, [] => []
  | i, wd :: rest => mifBodyLine w i wd :: mifBody w (i + 1) rest

/-- MIF encoder (lines 105–115): header, body, `END;` footer.  Note the
script prints `args.width` (bytes) in the `WIDTH` field. -/
def mifLines (w : Nat) (ws : List Nat) : List String :=
  ["DEPTH = " ++ toString ws.length ++ ";",
   "WIDTH = " ++ toString w ++ ";",
   "ADDRESS_RADIX = HEX;",
   "DATA_RADIX = HEX;",
   "CONTENT",
   "BEGIN"]
  ++ mifBody w 0 ws
  ++ ["END;"]

/-- `'-' * 80`. -/
def dashes : String := String.mk (List.replicate 80 '-')

/-- The VHD banner, library clauses and package opening (lines 119–139),
one list entry per `print` call, each entry carrying its own newline.
`date`, `prog` and `argsStr` stand for `today.strftime(...)`,
`parser.prog` and `str(vars(args))`. -/
def vhdHeaderPieces (inFile date prog argsStr name : String) : List String :=
  [dashes ++ "\n",
   "-- Memory initialization file for " ++ inFile ++ "\n",
   "--\n",
   "-- This file was automatically generated on " ++ date ++ "\n",
   "-- by " ++ prog ++ " using the following arguments:\n",
   "--  " ++ argsStr ++ "\n",
   "--\n",
   "-- " ++ prog ++ " is part of OHWR general-cores:\n",
   "-- https://www.ohwr.org/projects/general-cores/wiki\n",
   dashes ++ "\n",
   "\n",
   "library ieee;\n",
   "use ieee.std_logic_1164.all;\n",
   "use ieee.numeric_std.all;\n",
   "\n",
   "library work;\n",
   "use work.memory_loader_pkg.all;\n",
   "\n",
   "package " ++ name ++ "_pkg is\n",
   "\n"]

/-- The constant declaration line (lines 140–141): a single `print` with two
arguments joined by one space; the bounds are Python ints, so `n - 1` is
`-1` when the word list is empty. -/
def vhdConstLine (name : String) (n w : Nat) : String :=
  "  constant " ++ name ++ " : t_meminit_array( " ++ toString ((n : Int) - 1)
    ++ " downto 0, " ++ toString ((w : Int) * 8 - 1) ++ " downto 0) := (\n"

/-- One iteration of the association loop (lines 145–153): the association
fragment, then `);\n` for the last word, else a comma and — when the
(float-computed) wrap condition holds — a newline. -/
def vhdAssocPiece (w iw n : Nat) (wrapAt : Nat → Bool) (i wd : Nat) : String :=
  "    " ++ padLeft ' ' iw (toString i) ++ " => x\"" ++ padLeft '0' (w * 2) (natToBase 16 wd) ++ "\""
    ++ (if i = n - 1 then ");\n" else "," ++ (if wrapAt i then "\n" else ""))

/-- The association loop over `enumerate(words)`, index carried explicitly. -/
def vhdAssocPieces (w iw n : Nat) (wrapAt : Nat → Bool) : Nat → List Nat → List String
  | _, [] => []
  | i, wd :: rest => vhdAssocPiece w iw n wrapAt i wd :: vhdAssocPieces w iw n wrapAt (i + 1) rest

/-- VHD encoder (lines 118–155): banner and package opening, constant line,
association pieces, a blank line, and the `end package` line.
`iwidth = len(str(len(words)))`. -/
def vhdPieces (w : Nat) (ws : List Nat) (name inFile date prog argsStr : String)
    (wrapAt : Nat → Bool) : List String :=
  vhdHeaderPieces inFile date prog argsStr name
  ++ [vhdConstLine name ws.length w]
  ++ vhdAssocPieces w (toString ws.length).length ws.length wrapAt 0 ws
  ++ ["\n", "end package " ++ name ++ "_pkg;\n"]

/-- Shaper followed by Word Decomposer. -/
def pipelineWords (cfg : Config) (contents : List Nat) : List Nat :=
  wordsOf cfg.invert cfg.width (shape cfg.depth cfg.width cfg.pad contents)

/-- The whole program's standard output for one run, as a function of the
configuration, the input file's bytes, and the environment-derived strings
(`date` from `datetime.date.today()`, `prog`, `vars(args)` dump) and the
float wrap predicate. -/
def output (cfg : Config) (contents : List Nat) (date prog argsStr : String)
    (wrapAt : Nat → Bool) : String :=
  match cfg.oformat with
  | .BRAM => String.join ((bramLines cfg.width (pipelineWords cfg contents)).map (fun s => s ++ "\n"))
  | .MIF => String.join ((mifLines cfg.width (pipelineWords cfg contents)).map (fun s => s ++ "\n"))
  | .VHD => String.join (vhdPieces cfg.width (pipelineWords cfg contents) cfg.name cfg.inFile date prog argsStr wrapAt)

/-- A concrete VHD run configuration (defaults except the format). -/
def cfgVHD : Config :=
  { width := 4, depth := 0, pad := 0, invert := false, name := "mem_init",
    inFile := "input.bin", oformat := OFormat.VHD }

/-- A concrete BRAM run configuration (all defaults). -/
def cfgBRAM : Config :=
  { width := 4, depth := 0, pad := 0, invert := false, name := "mem_init",
    inFile := "input.bin", oformat := OFormat.BRAM }

/-- Entry `i` of the chunk list is the slice `B[i*w : i*w + w]`,
for any sufficient fuel. -/
theorem chunksF_getElem (w : Nat) (hw : 0 < w) :
    ∀ (i fuel : Nat) (B : List Nat), B.length ≤ fuel → i < (chunksF w fuel B).length →
      (chunksF w fuel B)[i]? = some ((B.drop (i * w)).take w) := by
  intro i
  induction i with
  | zero =>
    intro fuel B hfuel hi
    match fuel, B with
    | 0, B => simp [chunksF] at hi
    | fuel + 1, [] => simp [chunksF] at hi
    | fuel + 1, b :: bs => simp [chunksF]
  | succ i ih =>
    intro fuel B hfuel hi
    match fuel, B with
    | 0, B => simp [chunksF] at hi
    | fuel + 1, [] => simp [chunksF] at hi
    | fuel + 1, b :: bs =>
      have hbs : (bs.drop (w - 1)).length ≤ fuel := by
        simp only [List.length_drop]
        simp only [List.length_cons] at hfuel
        omega
      have hi' : i < (chunksF w fuel (bs.drop (w - 1))).length := by
        simp only [chunksF, List.length_cons] at hi
        omega
      have hrec := ih fuel (bs.drop (w - 1)) hbs hi'
      simp only [chunksF, List.getElem?_cons_succ]
      rw [hrec, List.drop_drop, Nat.succ_mul]
      have hww : i * w + w = ((w - 1) + i * w) + 1 := by omega
      rw [hww, List.drop_succ_cons]

/-- Specialization to `chunks`. -/
theorem chunks_getElem (w : Nat) (hw : 0 < w) (B : List Nat) (i : Nat)
    (hi : i < (chunks w B).length) :
    (chunks w B)[i]? = some ((B.drop (i * w)).take w) :=
  chunksF_getElem w hw i B.length B le_rfl hi

/-- The big-endian fold stays below `(acc+1) * 256 ^ length` when every
byte is below 256. -/
theorem foldl_be_lt (l : List Nat) (h : ∀ b ∈ l, b < 256) :
    ∀ acc : Nat, l.foldl (fun a b => a * 256 + b) acc < (acc + 1) * 256 ^ l.length := by
  induction l with
  | nil => intro acc; simp only [List.foldl_nil, List.length_nil, pow_zero, mul_one]; omega
  | cons b t ih =>
    intro acc
    have hb : b < 256 := h b (by simp)
    have ht : ∀ x ∈ t, x < 256 := fun x hx => h x (by simp [hx])
    have h1 := ih ht (acc * 256 + b)
    simp only [List.foldl_cons, List.length_cons]
    calc t.foldl (fun a b => a * 256 + b) (acc * 256 + b)
        < (acc * 256 + b + 1) * 256 ^ t.length := h1
      _ ≤ ((acc + 1) * 256) * 256 ^ t.length := by
          have : acc * 256 + b + 1 ≤ (acc + 1) * 256 := by omega
          exact Nat.mul_le_mul_right _ this
      _ = (acc + 1) * 256 ^ (t.length + 1) := by ring

/-- A list of bytes below 256 encodes, big-endian, a value below
`256 ^ length`. -/
theorem bytesToNat_lt (l : List Nat) (h : ∀ b ∈ l, b < 256) :
    bytesToNat l < 256 ^ l.length := by
  have h1 := foldl_be_lt l h 0
  simp only [Nat.zero_add, one_mul] at h1
  exact h1

/-- Every digit produced by `digitsF` is below the base. -/
theorem digitsF_mem_lt (b : Nat) (hb : 0 < b) :
    ∀ (fuel n d : Nat), d ∈ digitsF b fuel n → d < b := by
  intro fuel
  induction fuel with
  | zero => intro n d h; simp [digitsF] at h
  | succ fuel ih =>
    intro n d h
    match n with
    | 0 => simp [digitsF] at h
    | m + 1 =>
      simp only [digitsF, List.mem_cons] at h
      rcases h with h | h
      · subst h; exact Nat.mod_lt _ hb
      · exact ih _ _ h

/-- `n < b ^ k` gives at most `k` digits. -/
theorem digitsF_length_le (b : Nat) (hb : 1 < b) :
    ∀ (fuel n k : Nat), n ≤ fuel → n < b ^ k → (digitsF b fuel n).length ≤ k := by
  intro fuel
  induction fuel with
  | zero =>
    intro n k h1 h2
    have : n = 0 := by omega
    subst this
    simp [digitsF]
  | succ fuel ih =>
    intro n k h1 h2
    match n with
    | 0 => simp [digitsF]
    | m + 1 =>
      have hk : k ≠ 0 := by
        rintro rfl
        simp at h2
      obtain ⟨k', rfl⟩ : ∃ k', k = k' + 1 := ⟨k - 1, by omega⟩
      have hdiv : (m + 1) / b < b ^ k' := by
        rw [Nat.div_lt_iff_lt_mul (by omega)]
        calc m + 1 < b ^ (k' + 1) := h2
          _ = b ^ k' * b := by ring
      have hle : (m + 1) / b ≤ fuel := by
        have := Nat.div_lt_self (show 0 < m + 1 by omega) hb
        omega
      have hrec : (digitsF b fuel ((m + 1) / b)).length ≤ k' := ih ((m + 1) / b) k' hle hdiv
      show (((m + 1) % b) :: digitsF b fuel ((m + 1) / b)).length ≤ k' + 1
      simp only [List.length_cons]
      omega

/-- Rendered numeral length: at most `k` characters when `n < b ^ k`. -/
theorem natToBase_length_le (b n k : Nat) (hb : 1 < b) (hk : 0 < k) (hn : n < b ^ k) :
    (natToBase b n).length ≤ k := by
  unfold natToBase
  split
  · exact hk
  · simp only [String.length_mk, List.length_map, List.length_reverse]
    exact digitsF_length_le b hb n n k le_rfl hn

/-- The characters of the padded field. -/
theorem padLeft_data (c : Char) (w : Nat) (s : String) :
    (padLeft c w s).data = List.replicate (w - s.length) c ++ s.data := rfl

/-- Padding a string no longer than the field gives exactly the field width. -/
theorem padLeft_length (c : Char) (w : Nat) (s : String) (h : s.length ≤ w) :
    (padLeft c w s).length = w := by
  simp only [padLeft, String.length_mk, List.length_append, List.length_replicate]
  have hs : s.data.length = s.length := rfl
  omega

/-- Binary numerals only use the characters `'0'` and `'1'`. -/
theorem natToBase_two_chars (n : Nat) :
    ∀ ch ∈ (natToBase 2 n).data, ch = '0' ∨ ch = '1' := by
  intro ch h
  unfold natToBase at h
  split at h
  · left
    exact List.mem_singleton.mp h
  · simp only [String.mk] at h
    simp only [List.mem_map, List.mem_reverse] at h
    obtain ⟨d, hd, rfl⟩ := h
    have := digitsF_mem_lt 2 (by omega) n n d hd
    interval_cases d
    · left; rfl
    · right; rfl

/-- Reversing a list of at most one element changes nothing. -/
theorem reverse_eq_self_of_short {α : Type} (l : List α) (h : l.length ≤ 1) :
    l.reverse = l := by
  match l with
  | [] => rfl
  | [_] => rfl
  | _ :: _ :: _ => simp at h

/-- The MIF body has one line per word. -/
theorem mifBody_length (w : Nat) :
    ∀ (ws : List Nat) (s : Nat), (mifBody w s ws).length = ws.length := by
  intro ws
  induction ws with
  | nil => intro s; rfl
  | cons a t ih => intro s; simp [mifBody, ih]

/-- Line `i` of the MIF body addresses word `i`, offset by the running index. -/
theorem mifBody_getElem (w : Nat) :
    ∀ (ws : List Nat) (s i : Nat) (hi : i < ws.length),
      (mifBody w s ws)[i]? = some (mifBodyLine w (s + i) ws[i]) := by
  intro ws
  induction ws with
  | nil => intro s i hi; simp at hi
  | cons a t ih =>
    intro s i hi
    match i with
    | 0 => simp [mifBody]
    | i + 1 =>
      simp only [mifBody, List.getElem?_cons_succ, List.getElem_cons_succ]
      have := ih (s + 1) i (by simpa using Nat.lt_of_succ_lt_succ hi)
      rw [this]
      have hadd : s + 1 + i = s + (i + 1) := by omega
      rw [hadd]

/-- The association loop emits one piece per word. -/
theorem vhdAssocPieces_length (w iw n : Nat) (wrapAt : Nat → Bool) :
    ∀ (ws : List Nat) (s : Nat), (vhdAssocPieces w iw n wrapAt s ws).length = ws.length := by
  intro ws
  induction ws with
  | nil => intro s; rfl
  | cons a t ih => intro s; simp [vhdAssocPieces, ih]

/-- Piece `i` of the association loop renders word `i`, offset by the
running index. -/
theorem vhdAssocPieces_getElem (w iw n : Nat) (wrapAt : Nat → Bool) :
    ∀ (ws : List Nat) (s i : Nat) (hi : i < ws.length),
      (vhdAssocPieces w iw n wrapAt s ws)[i]? = some (vhdAssocPiece w iw n wrapAt (s + i) ws[i]) := by
  intro ws
  induction ws with
  | nil => intro s i hi; simp at hi
  | cons a t ih =>
    intro s i hi
    match i with
    | 0 => simp [vhdAssocPieces]
    | i + 1 =>
      simp only [vhdAssocPieces, List.getElem?_cons_succ, List.getElem_cons_succ]
      have := ih (s + 1) i (by simpa using Nat.lt_of_succ_lt_succ hi)
      rw [this]
      have hadd : s + 1 + i = s + (i + 1) := by omega
      rw [hadd]

/-- C1: the claim says that with `depth == 0` the Shaper pads to the
smallest multiple of `width` at or above the input length — in particular
a 3-byte input with `width = 4` becomes 4 bytes.  The code violates this
(and its own comment `pad if necessary to get to args.width boundary`):
line 87 appends `len(contents) % width` pad bytes instead of
`(width - len % width) % width`, so the spec's own 3-byte example with
`width = 4`, `pad = 0` yields a 6-byte buffer `0A 0B 0C 00 00 00`, which is
not even a multiple of 4. -/
theorem C1_width_boundary_bug :
    shape 0 4 0 [10, 11, 12] = [10, 11, 12, 0, 0, 0]
    ∧ (shape 0 4 0 [10, 11, 12]).length = 6
    ∧ (shape 0 4 0 [10, 11, 12]).length % 4 ≠ 0 := by decide

/-- C2: the claimed invariant `len(shaped) % width == 0` and
`len(words) * width == len(shaped)` fails on the code for `depth = 0`,
`width = 4` and a 3-byte input: the shaped buffer has 6 bytes
(`6 % 4 = 2`), and the decomposer then produces 2 words
(`2 * 4 = 8 ≠ 6`), the second from a ragged 2-byte tail slice. -/
theorem C2_shaping_invariant_bug :
    (shape 0 4 0 [10, 11, 12]).length % 4 ≠ 0
    ∧ (wordsOf false 4 (shape 0 4 0 [10, 11, 12])).length * 4
        ≠ (shape 0 4 0 [10, 11, 12]).length := by decide

/-- C3 (counterexample): the claim says the MIF `WIDTH` field equals
`width*8` (bits per word); the code prints `args.width` (bytes), so for
`width = 4` the second header line is `WIDTH = 4;`, not `WIDTH = 32;`. -/
theorem C3_width_field_counterexample :
    (mifLines 4 [16909060])[1]? = some "WIDTH = 4;"
    ∧ (mifLines 4 [16909060])[1]? ≠ some "WIDTH = 32;" := by decide

/-- C3 (amended): the MIF encoder emits header lines, each terminated by
`;`, in the exact order DEPTH, WIDTH, ADDRESS_RADIX = HEX,
DATA_RADIX = HEX, then the literals CONTENT and BEGIN, where the DEPTH
field equals the number of words and the WIDTH field equals `width`
(bytes per word, as the code emits `args.width`). -/
theorem C3_mif_header (w : Nat) (ws : List Nat) :
    (mifLines w ws).take 6 =
      ["DEPTH = " ++ toString ws.length ++ ";",
       "WIDTH = " ++ toString w ++ ";",
       "ADDRESS_RADIX = HEX;",
       "DATA_RADIX = HEX;",
       "CONTENT",
       "BEGIN"] := rfl

/-- C5: with `depth > 0`, a short input is padded with exactly
`depth*width - len(B)` copies of `pad` to length exactly `depth*width`; a
long input is truncated to its first `depth*width` bytes; an exact-length
input passes through unchanged. -/
theorem C5_depth_shaping (B : List Nat) (width depth pad : Nat)
    (hw : 0 < width) (hd : 0 < depth) (hpad : pad ≤ 255) :
    (B.length < depth * width →
        shape depth width pad B = B ++ List.replicate (depth * width - B.length) pad
          ∧ (shape depth width pad B).length = depth * width)
    ∧ (depth * width < B.length → shape depth width pad B = B.take (depth * width))
    ∧ (B.length = depth * width → shape depth width pad B = B) := by
  have hd' : depth ≠ 0 := by omega
  refine ⟨?_, ?_, ?_⟩
  · intro h
    have h1 : shapeDepth depth width pad B = B ++ List.replicate (depth * width - B.length) pad := by
      unfold shapeDepth
      rw [if_pos hd', if_pos h]
    have h2 : (shapeDepth depth width pad B).length = depth * width := by
      rw [h1]
      simp only [List.length_append, List.length_replicate]
      omega
    constructor
    · unfold shape
      rw [h2, Nat.mul_mod_left, List.replicate_zero, List.append_nil, h1]
    · unfold shape
      rw [h2, Nat.mul_mod_left, List.replicate_zero, List.append_nil, h2]
  · intro h
    have h1 : shapeDepth depth width pad B = B.take (depth * width) := by
      unfold shapeDepth
      rw [if_pos hd', if_neg (by omega)]
    have h2 : (shapeDepth depth width pad B).length = depth * width := by
      rw [h1]
      simp only [List.length_take]
      omega
    unfold shape
    rw [h2, Nat.mul_mod_left, List.replicate_zero, List.append_nil, h1]
  · intro h
    have h1 : shapeDepth depth width pad B = B := by
      unfold shapeDepth
      rw [if_pos hd', if_neg (by omega), ← h, List.take_length]
    unfold shape
    rw [h1, h, Nat.mul_mod_left, List.replicate_zero, List.append_nil]

/-- C5 (witness): applying the depth-shaping theorem at a concrete input:
2 bytes shaped to `depth = 1`, `width = 4`, `pad = 7` become the 2 bytes
followed by 2 pad bytes. -/
theorem C5_depth_shaping_witness :
    shape 1 4 7 [1, 2] = [1, 2] ++ List.replicate (1 * 4 - 2) 7 :=
  ((C5_depth_shaping [1, 2] 4 1 7 (by decide) (by decide) (by decide)).1 (by decide)).1

/-- C4: for a shaped buffer whose length is a multiple of `width`, word `i`
is the big-endian unsigned interpretation of the byte slice
`[i*width, i*width + width)`, reversed first when `invert` is set (for
`width = 1` the code skips the reversal, which is the identity there);
every word is below `2^(8*width)`.  Concretely, bytes `01 02 03 04` with
`width = 4` give `0x01020304` plain and `0x04030201` inverted. -/
theorem C4_word_decomposer (w : Nat) (invert : Bool) (B : List Nat)
    (hw : 0 < w) (hdvd : w ∣ B.length) (hbytes : ∀ b ∈ B, b < 256) :
    (∀ i (hi : i < (wordsOf invert w B).length),
        (wordsOf invert w B)[i] =
          bytesToNat (if invert then ((B.drop (i * w)).take w).reverse
                      else (B.drop (i * w)).take w)
        ∧ (wordsOf invert w B)[i] < 2 ^ (8 * w))
    ∧ wordsOf false 4 [1, 2, 3, 4] = [16909060]
    ∧ wordsOf true 4 [1, 2, 3, 4] = [67305985] := by
  refine ⟨?_, by decide, by decide⟩
  intro i hi
  set c := (B.drop (i * w)).take w with hcdef
  have hlen_c : c.length ≤ w := by
    rw [hcdef]
    simp only [List.length_take]
    exact Nat.min_le_left _ _
  have hmem_c : ∀ b ∈ c, b < 256 := by
    intro b hb
    exact hbytes b (List.drop_subset _ _ (List.take_subset _ _ hb))
  have hchunks : i < (chunks w B).length := by
    unfold wordsOf at hi
    split at hi <;> simpa using hi
  have hc : (chunks w B)[i]? = some c := chunks_getElem w hw B i hchunks
  have key : (wordsOf invert w B)[i]? = some (bytesToNat (if invert then c.reverse else c)) := by
    unfold wordsOf
    split
    next hcond =>
      obtain ⟨hinv, hw1⟩ := hcond
      rw [List.getElem?_map, hc]
      simp [hinv]
    next hcond =>
      rw [List.getElem?_map, hc]
      by_cases hinv : invert = true
      · have hw1 : w = 1 := by
          rcases not_and_or.mp hcond with h' | h'
          · exact absurd hinv h'
          · omega
        have hrev : c.reverse = c := by
          apply reverse_eq_self_of_short
          omega
        simp [hinv, hrev]
      · simp [hinv]
  have hval : (wordsOf invert w B)[i] = bytesToNat (if invert then c.reverse else c) := by
    rw [List.getElem?_eq_getElem hi] at key
    exact Option.some.inj key
  refine ⟨hval, ?_⟩
  rw [hval]
  have hlen' : (if invert then c.reverse else c).length ≤ w := by
    split <;> simpa using hlen_c
  have hmem' : ∀ b ∈ (if invert then c.reverse else c), b < 256 := by
    split
    · intro b hb
      exact hmem_c b (List.mem_reverse.mp hb)
    · exact hmem_c
  calc bytesToNat (if invert then c.reverse else c)
      < 256 ^ (if invert then c.reverse else c).length := bytesToNat_lt _ hmem'
    _ ≤ 256 ^ w := Nat.pow_le_pow_right (by omega) hlen'
    _ = 2 ^ (8 * w) := by
        rw [pow_mul]
        norm_num

/-- C4 (witness): the word-decomposition theorem applied to the concrete
4-byte buffer `01 02 03 04` with `width = 4`, `invert = true`, whose single
word is `0x04030201`. -/
theorem C4_word_decomposer_witness :
    wordsOf true 4 [1, 2, 3, 4] = [67305985] :=
  (C4_word_decomposer 4 true [1, 2, 3, 4] (by decide) (by decide) (by decide)).2.2

/-- C6: the BRAM encoder emits exactly one line per word, in order, with no
header or footer; each line has exactly `width*8` characters, all `'0'` or
`'1'`: the word's binary representation zero-padded on the left, most
significant bit first. -/
theorem C6_bram_encoder (w : Nat) (ws : List Nat)
    (hw : 0 < w) (hws : ∀ v ∈ ws, v < 2 ^ (8 * w)) :
    (bramLines w ws).length = ws.length
    ∧ ∀ i (hi : i < ws.length),
        (bramLines w ws)[i]? = some (padLeft '0' (w * 8) (natToBase 2 ws[i]))
        ∧ (padLeft '0' (w * 8) (natToBase 2 ws[i])).length = w * 8
        ∧ ∀ ch ∈ (padLeft '0' (w * 8) (natToBase 2 ws[i])).data, ch = '0' ∨ ch = '1' := by
  constructor
  · simp [bramLines]
  · intro i hi
    have hv : ws[i] < 2 ^ (8 * w) := hws _ (List.getElem_mem hi)
    have hv' : ws[i] < 2 ^ (w * 8) := by
      have : (2:Nat) ^ (8 * w) = 2 ^ (w * 8) := by
        congr 1
        ring
      omega
    have hlen : (natToBase 2 ws[i]).length ≤ w * 8 :=
      natToBase_length_le 2 ws[i] (w * 8) (by omega) (by omega) hv'
    refine ⟨?_, padLeft_length _ _ _ hlen, ?_⟩
    · simp [bramLines, List.getElem?_map, List.getElem?_eq_getElem hi]
    · intro ch hch
      rw [padLeft_data] at hch
      rcases List.mem_append.mp hch with h | h
      · left
        exact List.eq_of_mem_replicate h
      · exact natToBase_two_chars _ ch h

/-- C6 (witness): the BRAM theorem applied at `width = 4`,
`words = [0x01020304]`: one line per word. -/
theorem C6_bram_encoder_witness :
    (bramLines 4 [16909060]).length = ([16909060] : List Nat).length :=
  (C6_bram_encoder 4 [16909060] (by decide) (by decide)).1

/-- C7: the MIF body has one line per word at offset 6 after the header,
of the form `<address in lowercase hex, no leading zeros> : <word in
lowercase hex, zero-padded to width*2 digits>;`, with address `i` on body
line `i` (addresses start at 0 and increment by 1), followed by the footer
`END;`. -/
theorem C7_mif_body (w : Nat) (ws : List Nat)
    (hw : 0 < w) (hws : ∀ v ∈ ws, v < 2 ^ (8 * w)) :
    (∀ i (hi : i < ws.length),
        (mifLines w ws)[6 + i]? =
          some (natToBase 16 i ++ " : " ++ padLeft '0' (w * 2) (natToBase 16 ws[i]) ++ ";")
        ∧ (padLeft '0' (w * 2) (natToBase 16 ws[i])).length = w * 2)
    ∧ (mifLines w ws)[6 + ws.length]? = some "END;"
    ∧ (mifLines w ws).length = 7 + ws.length := by
  have hsplit : mifLines w ws =
      ["DEPTH = " ++ toString ws.length ++ ";",
       "WIDTH = " ++ toString w ++ ";",
       "ADDRESS_RADIX = HEX;",
       "DATA_RADIX = HEX;",
       "CONTENT",
       "BEGIN"] ++ (mifBody w 0 ws ++ ["END;"]) := by
    simp [mifLines]
  refine ⟨?_, ?_, ?_⟩
  · intro i hi
    have h1 : (mifLines w ws)[6 + i]? = (mifBody w 0 ws ++ ["END;"])[i]? := by
      rw [hsplit, List.getElem?_append_right (by simp)]
      congr 1
      simp
    have h2 : (mifBody w 0 ws ++ ["END;"])[i]? = (mifBody w 0 ws)[i]? :=
      List.getElem?_append_left (by rw [mifBody_length]; exact hi)
    constructor
    · rw [h1, h2, mifBody_getElem w ws 0 i hi]
      simp [mifBodyLine]
    · have hv : ws[i] < 2 ^ (8 * w) := hws _ (List.getElem_mem hi)
      have hv' : ws[i] < 16 ^ (w * 2) := by
        have : (2:Nat) ^ (8 * w) = 16 ^ (w * 2) := by
          rw [show (16:Nat) = 2 ^ 4 from rfl, ← pow_mul]
          congr 1
          ring
        omega
      exact padLeft_length _ _ _ (natToBase_length_le 16 ws[i] (w * 2) (by omega) (by omega) hv')
  · have h1 : (mifLines w ws)[6 + ws.length]? = (mifBody w 0 ws ++ ["END;"])[ws.length]? := by
      rw [hsplit, List.getElem?_append_right (by simp)]
      congr 1
      simp
    rw [h1, List.getElem?_append_right (by rw [mifBody_length]), mifBody_length]
    simp
  · rw [hsplit]
    simp [mifBody_length]
    omega

/-- C7 (witness): the MIF body theorem applied at `width = 4`,
`words = [0x01020304]`: the footer follows the single body line. -/
theorem C7_mif_body_witness :
    (mifLines 4 [16909060])[6 + ([16909060] : List Nat).length]? = some "END;" :=
  (C7_mif_body 4 [16909060] (by decide) (by decide)).2.1

/-- Converting a nonnegative integer rendering to the natural rendering. -/
theorem toString_int_ofNat (m : Nat) : toString ((m : Nat) : Int) = toString m := rfl

/-- With at least one word and positive width, the constant line's Python
int bounds coincide with natural-number bounds. -/
theorem vhdConstLine_of_pos (name : String) (n w : Nat) (hn : 0 < n) (hw : 0 < w) :
    vhdConstLine name n w =
      "  constant " ++ name ++ " : t_meminit_array( " ++ toString (n - 1)
        ++ " downto 0, " ++ toString (w * 8 - 1) ++ " downto 0) := (\n" := by
  have h1 : ((n : Int) - 1) = ((n - 1 : Nat) : Int) := by omega
  have h2 : ((w : Int) * 8 - 1) = ((w * 8 - 1 : Nat) : Int) := by omega
  rw [vhdConstLine, h1, h2, toString_int_ofNat, toString_int_ofNat]

/-- C8: for a non-empty word list, the VHD encoder opens a package named
`<name>_pkg` (piece 18), declares one constant named `<name>` of type
`t_meminit_array(wordCount-1 downto 0, width*8-1 downto 0)` (piece 20),
then emits exactly one association piece
`<index> => x"<hex zero-padded to width*2 digits>"` per word, the last
followed by `);` and every other by a comma (and, depending on the wrap
predicate, a newline), and closes with `end package <name>_pkg;`. -/
theorem C8_vhd_package (w : Nat) (ws : List Nat)
    (name inFile date prog argsStr : String) (wrapAt : Nat → Bool)
    (hne : ws ≠ []) (hw : 0 < w) (hws : ∀ v ∈ ws, v < 2 ^ (8 * w)) :
    (vhdPieces w ws name inFile date prog argsStr wrapAt)[18]? =
        some ("package " ++ name ++ "_pkg is\n")
    ∧ (vhdPieces w ws name inFile date prog argsStr wrapAt)[20]? =
        some ("  constant " ++ name ++ " : t_meminit_array( " ++ toString (ws.length - 1)
          ++ " downto 0, " ++ toString (w * 8 - 1) ++ " downto 0) := (\n")
    ∧ (∀ i (hi : i < ws.length),
        (vhdPieces w ws name inFile date prog argsStr wrapAt)[21 + i]? =
          some ("    " ++ padLeft ' ' (toString ws.length).length (toString i)
            ++ " => x\"" ++ padLeft '0' (w * 2) (natToBase 16 ws[i]) ++ "\""
            ++ (if i = ws.length - 1 then ");\n" else "," ++ (if wrapAt i then "\n" else "")))
        ∧ (padLeft '0' (w * 2) (natToBase 16 ws[i])).length = w * 2)
    ∧ (vhdPieces w ws name inFile date prog argsStr wrapAt)[21 + ws.length]? = some "\n"
    ∧ (vhdPieces w ws name inFile date prog argsStr wrapAt)[22 + ws.length]? =
        some ("end package " ++ name ++ "_pkg;\n")
    ∧ (vhdPieces w ws name inFile date prog argsStr wrapAt).length = 23 + ws.length := by
  have hn : 0 < ws.length := List.length_pos.mpr hne
  have hsplit : vhdPieces w ws name inFile date prog argsStr wrapAt =
      (vhdHeaderPieces inFile date prog argsStr name ++ [vhdConstLine name ws.length w])
        ++ (vhdAssocPieces w (toString ws.length).length ws.length wrapAt 0 ws
            ++ ["\n", "end package " ++ name ++ "_pkg;\n"]) := by
    simp [vhdPieces]
  have hprelen : (vhdHeaderPieces inFile date prog argsStr name
      ++ [vhdConstLine name ws.length w]).length = 21 := by
    simp [vhdHeaderPieces]
  have hheadlen : (vhdHeaderPieces inFile date prog argsStr name).length = 20 := by
    simp [vhdHeaderPieces]
  refine ⟨rfl, ?_, ?_, ?_, ?_, ?_⟩
  · rw [hsplit, List.getElem?_append_left (by rw [hprelen]; omega),
      List.getElem?_append_right (by rw [hheadlen]), hheadlen]
    simp [vhdConstLine_of_pos name ws.length w hn hw]
  · intro i hi
    have h1 : (vhdPieces w ws name inFile date prog argsStr wrapAt)[21 + i]? =
        (vhdAssocPieces w (toString ws.length).length ws.length wrapAt 0 ws
          ++ ["\n", "end package " ++ name ++ "_pkg;\n"])[i]? := by
      rw [hsplit, List.getElem?_append_right (by rw [hprelen]; omega)]
      congr 1
      rw [hprelen]
      omega
    have h2 : (vhdAssocPieces w (toString ws.length).length ws.length wrapAt 0 ws
          ++ ["\n", "end package " ++ name ++ "_pkg;\n"])[i]? =
        (vhdAssocPieces w (toString ws.length).length ws.length wrapAt 0 ws)[i]? :=
      List.getElem?_append_left (by rw [vhdAssocPieces_length]; exact hi)
    constructor
    · rw [h1, h2, vhdAssocPieces_getElem _ _ _ _ ws 0 i hi]
      simp [vhdAssocPiece]
    · have hv : ws[i] < 2 ^ (8 * w) := hws _ (List.getElem_mem hi)
      have hv' : ws[i] < 16 ^ (w * 2) := by
        have : (2:Nat) ^ (8 * w) = 16 ^ (w * 2) := by
          rw [show (16:Nat) = 2 ^ 4 from rfl, ← pow_mul]
          congr 1
          ring
        omega
      exact padLeft_length _ _ _ (natToBase_length_le 16 ws[i] (w * 2) (by omega) (by omega) hv')
  · rw [hsplit, List.getElem?_append_right (by rw [hprelen]; omega)]
    rw [List.getElem?_append_right (by rw [vhdAssocPieces_length]; rw [hprelen]; omega)]
    rw [vhdAssocPieces_length, hprelen]
    have hidx : 21 + ws.length - 21 - ws.length = 0 := by omega
    rw [hidx]
    rfl
  · rw [hsplit, List.getElem?_append_right (by rw [hprelen]; omega)]
    rw [List.getElem?_append_right (by rw [vhdAssocPieces_length]; rw [hprelen]; omega)]
    rw [vhdAssocPieces_length, hprelen]
    have hidx : 22 + ws.length - 21 - ws.length = 1 := by omega
    rw [hidx]
    rfl
  · rw [hsplit]
    simp [List.length_append, vhdAssocPieces_length, vhdHeaderPieces]
    omega

/-- C8 (witness): the VHD package theorem applied at `width = 4` and the
single word `0x01020304`: the piece list has `23 + 1` pieces. -/
theorem C8_vhd_package_witness :
    (vhdPieces 4 [16909060] "mem_init" "input.bin" "Wednesday, January 01 2025"
      "mem_init_gen.py" "argsdump" (fun _ => false)).length = 23 + ([16909060] : List Nat).length :=
  (C8_vhd_package 4 [16909060] "mem_init" "input.bin" "Wednesday, January 01 2025"
    "mem_init_gen.py" "argsdump" (fun _ => false)
    (by decide) (by decide) (by decide)).2.2.2.2.2

set_option maxRecDepth 8000 in
/-- C9 (counterexample): the program's standard output is not independent
of when it runs: the VHD banner embeds `datetime.date.today()`, so the
same configuration and input produce different text on different dates. -/
theorem C9_time_dependence_counterexample :
    output cfgVHD [1, 2, 3, 4] "Wednesday, January 01 2025" "mem_init_gen.py" "argsdump"
        (fun _ => false)
    ≠ output cfgVHD [1, 2, 3, 4] "Friday, May 02 2025" "mem_init_gen.py" "argsdump"
        (fun _ => false) := by decide

/-- C9 (amended): for the BRAM and MIF formats the output is a function of
the configuration and input bytes alone — runs at different dates produce
byte-for-byte identical text; only the VHD format embeds the run date. -/
theorem C9_deterministic_bram_mif (cfg : Config) (contents : List Nat)
    (d₁ d₂ prog argsStr : String) (wrapAt : Nat → Bool)
    (h : cfg.oformat ≠ OFormat.VHD) :
    output cfg contents d₁ prog argsStr wrapAt = output cfg contents d₂ prog argsStr wrapAt := by
  obtain ⟨w, d, p, inv, nm, inf, f⟩ := cfg
  cases f
  · rfl
  · rfl
  · exact absurd rfl h

/-- C9 (witness): the determinism theorem applied to a concrete BRAM run
with two different dates. -/
theorem C9_deterministic_bram_mif_witness :
    output cfgBRAM [1, 2, 3] "Wednesday, January 01 2025" "p" "a" (fun _ => false)
    = output cfgBRAM [1, 2, 3] "Friday, May 02 2025" "p" "a" (fun _ => false) :=
  C9_deterministic_bram_mif cfgBRAM [1, 2, 3] "Wednesday, January 01 2025"
    "Friday, May 02 2025" "p" "a" (fun _ => false) (by decide)

/-- C10: an empty input with `depth = 0` yields an empty word list, and
then the VHD encoder emits the constant declaration's opening line — whose
row bound is the Python int `-1` — but no association piece at all: the
only pieces after the opener are a blank line and `end package <name>_pkg;`,
so the `);` that only the loop's last iteration prints never appears and
the aggregate is left unclosed. -/
theorem C10_empty_input_vhd (w pad : Nat) (invert : Bool)
    (name inFile date prog argsStr : String) (wrapAt : Nat → Bool) (hw : 0 < w) :
    wordsOf invert w (shape 0 w pad []) = []
    ∧ vhdPieces w [] name inFile date prog argsStr wrapAt
        = vhdHeaderPieces inFile date prog argsStr name
          ++ [vhdConstLine name 0 w, "\n", "end package " ++ name ++ "_pkg;\n"]
    ∧ vhdConstLine "mem_init" 0 4
        = "  constant mem_init : t_meminit_array( -1 downto 0, 31 downto 0) := (\n" := by
  refine ⟨?_, ?_, by decide⟩
  · have h0 : shape 0 w pad [] = [] := by
      unfold shape shapeDepth
      simp
    rw [h0]
    unfold wordsOf
    split <;> rfl
  · simp [vhdPieces, vhdAssocPieces]

/-- C10 (witness): the empty-input theorem applied at `width = 4`,
`pad = 0`, `invert = false`: the word list is empty. -/
theorem C10_empty_input_vhd_witness :
    wordsOf false 4 (shape 0 4 0 []) = [] :=
  (C10_empty_input_vhd 4 0 false "mem_init" "input.bin" "d" "p" "a"
    (fun _ => false) (by decide)).1


end MemInitGen
